import Mathlib

/-!
# quictransport-sample: client indication decoding and origin authorization

A shallow embedding of `server.go`:

* `receiveClientIndication` (the key/length/value decoder reading through
  `io.LimitReader`),
* `validateClientIndication` and `isOriginAllowd` (the origin check),
* `handleSession`, `communicate`, `communicateUni` (the order of session
  operations),

together with the properties of the specification that concern them.

Go strings are byte sequences, so they are modelled as `List UInt8`.  The
functions of the Go standard library the server calls (`io.ReadFull`,
`io.LimitReader`, `binary.Read`, `strings.ToLower`, `url.Parse`,
`(*URL).Parse`) are modelled after their Go 1.15 sources.
-/

namespace QuicTransport

/-! ## Byte strings -/

/-- A Go `string`: an immutable sequence of bytes. -/
abbrev GoString := List UInt8

/-- The bytes of an ASCII literal. -/
def str (s : String) : GoString := s.toList.map (fun c => UInt8.ofNat c.toNat)

instance {ε α : Type} [DecidableEq ε] [DecidableEq α] : DecidableEq (Except ε α)
  | Except.ok a, Except.ok b =>
    if h : a = b then isTrue (h ▸ rfl) else isFalse (fun h1 => h (Except.ok.inj h1))
  | Except.error a, Except.error b =>
    if h : a = b then isTrue (h ▸ rfl) else isFalse (fun h1 => h (Except.error.inj h1))
  | Except.ok _, Except.error _ => isFalse (fun h => Except.noConfusion h)
  | Except.error _, Except.ok _ => isFalse (fun h => Except.noConfusion h)

/-! ## Readers (`io`) -/

/-- The errors a read can report: `io.EOF`, `io.ErrUnexpectedEOF`, or an
error of the transport stream itself (identified by a code). -/
inductive IOError where
  | EOF
  | ErrUnexpectedEOF
  | stream (code : Nat)
  deriving DecidableEq

/-- A `quic.ReceiveStream` as the server sees it: the bytes its `Read` still
delivers, and how it ends once they are consumed: with `io.EOF` (`none`) or
with a stream error (`some code`). -/
structure ReceiveStream where
  data : List UInt8
  failure : Option Nat
  deriving DecidableEq

/-- A stream that delivers `bs` and then reports `io.EOF`. -/
def ReceiveStream.ofBytes (bs : List UInt8) : ReceiveStream := ⟨bs, none⟩

/-- The error `Read` reports when the stream has no byte left. -/
def ReceiveStream.endError (s : ReceiveStream) : IOError :=
  match s.failure with
  | none => IOError.EOF
  | some c => IOError.stream c

/-- Go's `io.LimitedReader`: the underlying reader `R` and the number `N` of
bytes that may still be read from it. -/
structure LimitedReader where
  R : ReceiveStream
  N : Nat
  deriving DecidableEq

/-- Go's `io.LimitReader(r, n)`. -/
def LimitReader (r : ReceiveStream) (n : Nat) : LimitedReader := ⟨r, n⟩

/-- The number of bytes a limited reader can still deliver. -/
def LimitedReader.avail (l : LimitedReader) : Nat := min l.N l.R.data.length

/-- The error `(*LimitedReader).Read` reports when it delivers no byte:
`io.EOF` when the limit is used up (`N <= 0`, the underlying reader is not
consulted), the underlying reader's end otherwise. -/
def LimitedReader.endError (l : LimitedReader) : IOError :=
  if l.N ≤ l.R.data.length then IOError.EOF else l.R.endError

/-- Go's `io.ReadFull(l, buf)` with `len(buf) = m`, on a limited reader: the
`m` bytes and the advanced reader when they can be delivered; otherwise
everything deliverable is consumed and the error is the reader's, with
`io.EOF` turned into `io.ErrUnexpectedEOF` when at least one byte was read
(`io.ReadAtLeast`).  For `m = 0` nothing is read and there is no error. -/
def readFull (l : LimitedReader) (m : Nat) : Except IOError (List UInt8) × LimitedReader :=
  if m ≤ l.avail then
    (Except.ok (l.R.data.take m), ⟨⟨l.R.data.drop m, l.R.failure⟩, l.N - m⟩)
  else
    let e := l.endError
    (Except.error (if e = IOError.EOF ∧ 0 < l.avail then IOError.ErrUnexpectedEOF else e),
      ⟨⟨l.R.data.drop l.avail, l.R.failure⟩, l.N - l.avail⟩)

/-- Go's `binary.BigEndian.Uint16`. -/
def bigEndianUint16 (b0 b1 : UInt8) : Nat := b0.toNat * 256 + b1.toNat

/-- Go's `binary.Read(r, binary.BigEndian, &x)` for a 16-bit `x`: `io.ReadFull`
of two bytes, decoded big-endian. -/
def binaryReadUint16 (l : LimitedReader) : Except IOError Nat × LimitedReader :=
  match readFull l 2 with
  | (Except.ok [b0, b1], l1) => (Except.ok (bigEndianUint16 b0 b1), l1)
  | (Except.ok _, l1) => (Except.error IOError.ErrUnexpectedEOF, l1)
  | (Except.error e, l1) => (Except.error e, l1)

/-! ## The client indication decoder -/

/-- The constant `maxClientIndicationLength`. -/
def maxClientIndicationLength : Nat := 65535

/-- The constant `clientIndicationKeyOrigin`. -/
def clientIndicationKeyOrigin : Nat := 0x0000

/-- The constant `clientIndicationKeyPath`. -/
def clientIndicationKeyPath : Nat := 0x0001

/-- The struct `ClientIndication`. -/
structure ClientIndication where
  Origin : GoString
  Path : GoString
  deriving DecidableEq

/-- What a call of `receiveClientIndication` leaves behind: its two results
`indication` and `err` (`none` is `nil`), and the warnings it logged (key and
value of every skipped record, in order). -/
structure Received where
  indication : ClientIndication
  err : Option IOError
  warnings : List (Nat × GoString)
  deriving DecidableEq

/-- The `switch key` of `receiveClientIndication`: the effect of one decoded
record on the indication. -/
def setField (ind : ClientIndication) (key : Nat) (value : GoString) : ClientIndication :=
  if key = clientIndicationKeyOrigin then { ind with Origin := value }
  else if key = clientIndicationKeyPath then { ind with Path := value }
  else ind

/-- The `default` branch of the `switch key`: an unknown key is logged. -/
def warnField (ws : List (Nat × GoString)) (key : Nat) (value : GoString) :
    List (Nat × GoString) :=
  if key = clientIndicationKeyOrigin then ws
  else if key = clientIndicationKeyPath then ws
  else ws ++ [(key, value)]

/-- The `for` loop of `receiveClientIndication`, one iteration per unit of
fuel; `none` when the fuel runs out before the loop ends. -/
def receiveLoop : Nat → LimitedReader → ClientIndication → List (Nat × GoString) →
    Option Received
  | 0, _, _, _ => none
  | fuel + 1, r, ind, ws =>
    match binaryReadUint16 r with
    | (Except.error e, _) =>
      if e = IOError.EOF then some ⟨ind, none, ws⟩ else some ⟨ind, some e, ws⟩
    | (Except.ok key, r1) =>
      match binaryReadUint16 r1 with
      | (Except.error e, _) =>
        some ⟨ind, some (if e = IOError.EOF then IOError.ErrUnexpectedEOF else e), ws⟩
      | (Except.ok length, r2) =>
        match readFull r2 length with
        | (Except.error e, _) => some ⟨ind, some e, ws⟩
        | (Except.ok value, r3) =>
          receiveLoop fuel r3 (setField ind key value) (warnField ws key value)

/-- The method `receiveClientIndication`: the loop run on
`io.LimitReader(stream, maxClientIndicationLength)`, starting from the zero
indication.  Every iteration that continues consumes at least four of the at
most 65535 bytes, so the fuel given here is never used up
(`receiveClientIndication_total`). -/
def receiveClientIndication (stream : ReceiveStream) : Option Received :=
  receiveLoop (maxClientIndicationLength + 1) (LimitReader stream maxClientIndicationLength)
    ⟨[], []⟩ []

/-! ## The wire format -/

/-- Go's `binary.BigEndian.PutUint16`. -/
def putUint16 (v : Nat) : List UInt8 := [UInt8.ofNat (v / 256), UInt8.ofNat (v % 256)]

/-- Modelled from the spec: the repository has no encoder; this is one record
of the wire format, `{key: uint16 big-endian}{length: uint16 big-endian}{value:
length bytes}`. -/
def encodeRecord (key : Nat) (value : GoString) : List UInt8 :=
  putUint16 key ++ putUint16 value.length ++ value

/-- Modelled from the spec: the repository has no encoder; an indication is
sent as the record with key `0x0000` holding the origin, followed by the
record with key `0x0001` holding the path. -/
def encodeClientIndication (ind : ClientIndication) : List UInt8 :=
  encodeRecord clientIndicationKeyOrigin ind.Origin ++ encodeRecord clientIndicationKeyPath ind.Path

/-! ## `strings` -/

/-- The byte of an ASCII character. -/
def ch (c : Char) : UInt8 := UInt8.ofNat c.toNat

/-- Go's `strings.HasPrefix`. -/
def hasPrefix (s pre : GoString) : Bool := pre.isPrefixOf s

/-- Go's `strings.IndexByte`: the index of the first `c` in `s`. -/
def indexByte : GoString → UInt8 → Option Nat
  | [], _ => none
  | b :: bs, c => if b == c then some 0 else (indexByte bs c).map (· + 1)

/-- Go's `strings.LastIndexByte`: the index of the last `c` in `s`. -/
def lastIndexByte : GoString → UInt8 → Option Nat
  | [], _ => none
  | b :: bs, c =>
    match lastIndexByte bs c with
    | some i => some (i + 1)
    | none => if b == c then some 0 else none

/-- Go's `strings.Index`: the index of the first occurrence of `sep` in `s`. -/
def stringsIndex : GoString → GoString → Option Nat
  | [], sep => if sep.isEmpty then some 0 else none
  | b :: bs, sep =>
    if sep.isPrefixOf (b :: bs) then some 0 else (stringsIndex bs sep).map (· + 1)

/-- The ASCII branch of Go's `strings.ToLower`: `c += 'a' - 'A'` for the bytes
`'A'..'Z'`. -/
def asciiLower (s : GoString) : GoString :=
  s.map (fun c => if ch 'A' ≤ c && c ≤ ch 'Z' then c + (ch 'a' - ch 'A') else c)

/-- Go's `strings.ToLower`.  A string of ASCII bytes is returned unchanged
when it has no upper-case letter and with its letters lowered otherwise.  A
string with a byte `>= 0x80` goes through `strings.Map(unicode.ToLower, s)`,
which depends on the Unicode tables; that mapping is the parameter
`unicodeLower`. -/
def stringsToLower (unicodeLower : GoString → GoString) (s : GoString) : GoString :=
  let isASCII := s.all (fun c => c < 0x80)
  let hasUpper := s.any (fun c => ch 'A' ≤ c && c ≤ ch 'Z')
  if isASCII then
    if !hasUpper then s else asciiLower s
  else unicodeLower s

/-! ## `net/url` (after Go 1.15) -/

/-- The errors of `url.Parse`. -/
inductive URLError where
  | invalidControlCharacter
  | missingProtocolScheme
  | firstPathSegmentColon
  | escapeError
  | invalidHostError
  | missingBracket
  | invalidPort
  | invalidUserinfo
  deriving DecidableEq

/-- Go's `url.Userinfo`. -/
structure Userinfo where
  username : GoString
  password : GoString
  passwordSet : Bool
  deriving DecidableEq

/-- Go's `url.URL`, without `RawPath` and `RawFragment` (hints for
re-encoding that parsing sets from the other fields). -/
structure URL where
  Scheme : GoString := []
  Opaque : GoString := []
  User : Option Userinfo := none
  Host : GoString := []
  Path : GoString := []
  ForceQuery : Bool := false
  RawQuery : GoString := []
  Fragment : GoString := []
  deriving DecidableEq

/-- The `encoding` modes of `net/url`. -/
inductive Encoding where
  | encodePath
  | encodePathSegment
  | encodeHost
  | encodeZone
  | encodeUserPassword
  | encodeQueryComponent
  | encodeFragment
  deriving DecidableEq

def isAlpha (c : UInt8) : Bool := (ch 'a' ≤ c && c ≤ ch 'z') || (ch 'A' ≤ c && c ≤ ch 'Z')

def isDigit (c : UInt8) : Bool := ch '0' ≤ c && c ≤ ch '9'

/-- Go's `ishex`. -/
def ishex (c : UInt8) : Bool :=
  isDigit c || (ch 'a' ≤ c && c ≤ ch 'f') || (ch 'A' ≤ c && c ≤ ch 'F')

/-- Go's `unhex`. -/
def unhex (c : UInt8) : UInt8 :=
  if isDigit c then c - ch '0'
  else if ch 'a' ≤ c && c ≤ ch 'f' then c - ch 'a' + 10
  else if ch 'A' ≤ c && c ≤ ch 'F' then c - ch 'A' + 10
  else 0

/-- Go's `shouldEscape`. -/
def shouldEscape (c : UInt8) (mode : Encoding) : Bool :=
  if isAlpha c || isDigit c then false
  else if (mode == Encoding.encodeHost || mode == Encoding.encodeZone) &&
      ((str "!$&()*+,;=:[]<>").contains c || c == 0x27 || c == 0x22) then false
  else if (str "-_.~").contains c then false
  else if (str "$&+,/:;=?@").contains c then
    match mode with
    | Encoding.encodePath => c == ch '?'
    | Encoding.encodePathSegment => c == ch '/' || c == ch ';' || c == ch ',' || c == ch '?'
    | Encoding.encodeUserPassword => c == ch '@' || c == ch '/' || c == ch '?' || c == ch ':'
    | Encoding.encodeQueryComponent => true
    | Encoding.encodeFragment => false
    | _ => true
  else if mode == Encoding.encodeFragment && (str "!()*").contains c then false
  else true

/-- The first loop of Go's `unescape`: the check that the escapes of `s` are
well formed and allowed in `mode` (`none` when they are). -/
def unescapeCheck (mode : Encoding) : GoString → Option URLError
  | [] => none
  | c :: rest =>
    if c == ch '%' then
      match rest with
      | h1 :: h2 :: rest2 =>
        if !ishex h1 || !ishex h2 then some URLError.escapeError
        else if mode == Encoding.encodeHost && unhex h1 < 8 &&
            !(h1 == ch '2' && h2 == ch '5') then some URLError.escapeError
        else if mode == Encoding.encodeZone && !(h1 == ch '2' && h2 == ch '5') &&
            (unhex h1 <<< 4 ||| unhex h2) != ch ' ' &&
            shouldEscape (unhex h1 <<< 4 ||| unhex h2) Encoding.encodeHost then
          some URLError.escapeError
        else unescapeCheck mode rest2
      | _ => some URLError.escapeError
    else if c == ch '+' then unescapeCheck mode rest
    else if (mode == Encoding.encodeHost || mode == Encoding.encodeZone) && c < 0x80 &&
        shouldEscape c Encoding.encodeHost then some URLError.invalidHostError
    else unescapeCheck mode rest

/-- The second loop of Go's `unescape`: the escapes replaced by their bytes
(on a string that passed `unescapeCheck`). -/
def unescapeBytes (mode : Encoding) : GoString → GoString
  | [] => []
  | c :: rest =>
    if c == ch '%' then
      match rest with
      | h1 :: h2 :: rest2 => (unhex h1 <<< 4 ||| unhex h2) :: unescapeBytes mode rest2
      | _ => []
    else if c == ch '+' then
      (if mode == Encoding.encodeQueryComponent then ch ' ' else ch '+') :: unescapeBytes mode rest
    else c :: unescapeBytes mode rest

/-- Go's `unescape`. -/
def unescape (s : GoString) (mode : Encoding) : Except URLError GoString :=
  match unescapeCheck mode s with
  | some e => Except.error e
  | none => Except.ok (unescapeBytes mode s)

/-- Go's `stringContainsCTLByte`. -/
def stringContainsCTLByte (s : GoString) : Bool := s.any (fun b => b < ch ' ' || b == 0x7f)

/-- Go's `split(s, sep, cutc)`: `s` cut at the first `sep`, which goes to
neither part when `cutc` and to the second part otherwise. -/
def split (s : GoString) (sep : UInt8) (cutc : Bool) : GoString × GoString :=
  match indexByte s sep with
  | none => (s, [])
  | some i => if cutc then (s.take i, s.drop (i + 1)) else (s.take i, s.drop i)

/-- The loop of Go's `getscheme` from index `i`, `cs` being `rawurl[i:]`. -/
def getschemeFrom (rawurl : GoString) : Nat → GoString → Except URLError (GoString × GoString)
  | _, [] => Except.ok ([], rawurl)
  | i, c :: cs =>
    if isAlpha c then getschemeFrom rawurl (i + 1) cs
    else if isDigit c || c == ch '+' || c == ch '-' || c == ch '.' then
      if i == 0 then Except.ok ([], rawurl) else getschemeFrom rawurl (i + 1) cs
    else if c == ch ':' then
      if i == 0 then Except.error URLError.missingProtocolScheme
      else Except.ok (rawurl.take i, rawurl.drop (i + 1))
    else Except.ok ([], rawurl)

/-- Go's `getscheme`: the scheme before the first `:` and the rest behind it,
or no scheme and the whole string. -/
def getscheme (rawurl : GoString) : Except URLError (GoString × GoString) :=
  getschemeFrom rawurl 0 rawurl

/-- Go's `validOptionalPort`. -/
def validOptionalPort (port : GoString) : Bool :=
  match port with
  | [] => true
  | c :: digits => c == ch ':' && digits.all isDigit

/-- Go's `validUserinfo`. -/
def validUserinfo (s : GoString) : Bool :=
  s.all (fun r => isAlpha r || isDigit r || (str "-._:~!$&()*+,;=%@").contains r || r == 0x27)

/-- Go's `parseHost`. -/
def parseHost (host : GoString) : Except URLError GoString :=
  if hasPrefix host (str "[") then
    match lastIndexByte host (ch ']') with
    | none => Except.error URLError.missingBracket
    | some i =>
      if !validOptionalPort (host.drop (i + 1)) then Except.error URLError.invalidPort
      else
        match stringsIndex (host.take i) (str "%25") with
        | some zone =>
          match unescape (host.take zone) Encoding.encodeHost with
          | Except.error e => Except.error e
          | Except.ok host1 =>
            match unescape ((host.take i).drop zone) Encoding.encodeZone with
            | Except.error e => Except.error e
            | Except.ok host2 =>
              match unescape (host.drop i) Encoding.encodeHost with
              | Except.error e => Except.error e
              | Except.ok host3 => Except.ok (host1 ++ host2 ++ host3)
        | none => unescape host Encoding.encodeHost
  else
    match lastIndexByte host (ch ':') with
    | some i =>
      if !validOptionalPort (host.drop i) then Except.error URLError.invalidPort
      else unescape host Encoding.encodeHost
    | none => unescape host Encoding.encodeHost

/-- Go's `parseAuthority`: the user information and the host of an
authority `[userinfo@]host`. -/
def parseAuthority (authority : GoString) : Except URLError (Option Userinfo × GoString) :=
  match lastIndexByte authority (ch '@') with
  | none =>
    match parseHost authority with
    | Except.error e => Except.error e
    | Except.ok host => Except.ok (none, host)
  | some i =>
    match parseHost (authority.drop (i + 1)) with
    | Except.error e => Except.error e
    | Except.ok host =>
      let userinfo := authority.take i
      if !validUserinfo userinfo then Except.error URLError.invalidUserinfo
      else if !userinfo.contains (ch ':') then
        match unescape userinfo Encoding.encodeUserPassword with
        | Except.error e => Except.error e
        | Except.ok username => Except.ok (some ⟨username, [], false⟩, host)
      else
        match unescape (split userinfo (ch ':') true).1 Encoding.encodeUserPassword with
        | Except.error e => Except.error e
        | Except.ok username =>
          match unescape (split userinfo (ch ':') true).2 Encoding.encodeUserPassword with
          | Except.error e => Except.error e
          | Except.ok password => Except.ok (some ⟨username, password, true⟩, host)

/-- The end of Go's `parse`, from the authority on: `rest` is what follows
the scheme and precedes the query. -/
def parseAuthorityAndPath (url : URL) (rest : GoString) : Except URLError URL :=
  if (url.Scheme ≠ [] || !hasPrefix rest (str "///")) && hasPrefix rest (str "//") then
    let cut := split (rest.drop 2) (ch '/') false
    match parseAuthority cut.1 with
    | Except.error e => Except.error e
    | Except.ok (user, host) =>
      match unescape cut.2 Encoding.encodePath with
      | Except.error e => Except.error e
      | Except.ok path => Except.ok { url with User := user, Host := host, Path := path }
  else
    match unescape rest Encoding.encodePath with
    | Except.error e => Except.error e
    | Except.ok path => Except.ok { url with Path := path }

/-- The test of Go's `parse` on a relative reference: a `:` comes before the
first `/`. -/
def firstSegmentHasColon (rest : GoString) : Bool :=
  match indexByte rest (ch ':'), indexByte rest (ch '/') with
  | some colon, some slash => decide (colon < slash)
  | some _, none => true
  | none, _ => false

/-- The middle of Go's `parse`, behind the query: a rootless rest makes an
opaque URL when there is a scheme and must not have a colon in its first
segment when there is none. -/
def parseAfterQuery (url : URL) (rest : GoString) : Except URLError URL :=
  if !hasPrefix rest (str "/") then
    if url.Scheme ≠ [] then Except.ok { url with Opaque := rest }
    else if firstSegmentHasColon rest then Except.error URLError.firstPathSegmentColon
    else parseAuthorityAndPath url rest
  else parseAuthorityAndPath url rest

/-- Go's `parse(rawurl, false)`: a URL without fragment. -/
def parse (rawurl : GoString) : Except URLError URL :=
  if stringContainsCTLByte rawurl then Except.error URLError.invalidControlCharacter
  else if rawurl = str "*" then Except.ok { Path := str "*" }
  else
    match getscheme rawurl with
    | Except.error e => Except.error e
    | Except.ok (scheme, rest) =>
      if rest.getLast? == some (ch '?') && rest.count (ch '?') == 1 then
        parseAfterQuery { Scheme := asciiLower scheme, ForceQuery := true } rest.dropLast
      else
        parseAfterQuery { Scheme := asciiLower scheme, RawQuery := (split rest (ch '?') true).2 }
          (split rest (ch '?') true).1

/-- Go's `url.Parse`: the fragment is cut off at the first `#`, the rest is
parsed, and the fragment is unescaped. -/
def urlParse (rawurl : GoString) : Except URLError URL :=
  let cut := split rawurl (ch '#') true
  match parse cut.1 with
  | Except.error e => Except.error e
  | Except.ok url =>
    if cut.2 = [] then Except.ok url
    else
      match unescape cut.2 Encoding.encodeFragment with
      | Except.error e => Except.error e
      | Except.ok frag => Except.ok { url with Fragment := frag }

/-- The `Host` field of the URL that Go's `(*URL).ResolveReference` returns:
the reference's own host when the reference has a scheme, a host or user
information, no host when it is opaque, and the base's host otherwise. -/
def resolveReferenceHost (u ref : URL) : GoString :=
  if ref.Scheme ≠ [] ∨ ref.Host ≠ [] ∨ ref.User ≠ none then ref.Host
  else if ref.Opaque ≠ [] then []
  else u.Host

/-- Go's `(*URL).Parse(ref)`, reduced to the one field of its result the
server reads: `ref` is parsed with `url.Parse` and resolved against `u`; the
result is the error of the parse or the `Host` of the resolved URL. -/
def URL.ParseHost (u : URL) (ref : GoString) : Except URLError GoString :=
  match urlParse ref with
  | Except.error e => Except.error e
  | Except.ok refURL => Except.ok (resolveReferenceHost u refURL)

/-! ## Origin authorization -/

/-- The struct `Server`, reduced to the field authorization reads, with the
Unicode lower-casing of `strings.ToLower` it runs under. -/
structure Server where
  AllowedOrigins : List GoString
  unicodeLower : GoString → GoString

/-- The map `allowedOriginTable` as `sync.Once` builds it on the first call of
`isOriginAllowd`: the keys are the lowered entries of `AllowedOrigins`. -/
def Server.allowedOriginTable (s : Server) : List GoString :=
  s.AllowedOrigins.map (stringsToLower s.unicodeLower)

/-- The method `isOriginAllowd`. -/
def Server.isOriginAllowd (s : Server) (origin : GoString) : Bool :=
  s.allowedOriginTable.contains (stringsToLower s.unicodeLower origin)

/-- The errors `errBadOrigin` and `errBadPath`. -/
inductive ValidationError where
  | errBadOrigin
  | errBadPath
  deriving DecidableEq

/-- The method `validateClientIndication`; `none` is `nil`. -/
def Server.validateClientIndication (s : Server) (indication : ClientIndication) :
    Option ValidationError :=
  match urlParse indication.Origin with
  | Except.error _ => some ValidationError.errBadOrigin
  | Except.ok u =>
    if indication.Path = [] then some ValidationError.errBadPath
    else
      match u.ParseHost indication.Path with
      | Except.error _ => some ValidationError.errBadPath
      | Except.ok host =>
        if !s.isOriginAllowd host then some ValidationError.errBadOrigin else none

/-! ## Sessions -/

/-- A bidirectional stream the peer opened: whether `io.Copy(stream, stream)`
on it ends without error. -/
structure BidiStream where
  copyOk : Bool
  deriving DecidableEq

/-- A unidirectional stream the server opened: whether writing to it works. -/
structure SendStream where
  writeOk : Bool
  deriving DecidableEq

/-- A `quic.Session` as the handler meets it: the results of the successive
calls of `AcceptUniStream`, `AcceptStream` and `OpenUniStreamSync` (`none` is
an error).  A call behind the end of its list fails: the session is closed or
the context is cancelled. -/
structure Session where
  acceptUni : List (Option ReceiveStream)
  acceptBidi : List (Option BidiStream)
  openUni : List (Option SendStream)
  deriving DecidableEq

/-- The operations on a session and its streams, with their outcome. -/
inductive SessionOp where
  | ConnectionState
  | AcceptUniStream (ok : Bool)
  | AcceptStream (ok : Bool)
  | OpenUniStreamSync (ok : Bool)
  | Copy (ok : Bool)
  | Close
  deriving DecidableEq

/-- The method `communicate`: the operations of the echo loop, which ends at
the first failed `AcceptStream` or `io.Copy`. -/
def communicate : List (Option BidiStream) → List SessionOp
  | [] => [SessionOp.AcceptStream false]
  | none :: _ => [SessionOp.AcceptStream false]
  | some stream :: rest =>
    SessionOp.AcceptStream true :: SessionOp.Copy stream.copyOk ::
      (if stream.copyOk then communicate rest else [])

/-- The method `communicateUni`: the operations of the relay loop, which ends
at the first failed `AcceptUniStream`, `OpenUniStreamSync` or `io.Copy`; the
stream it opened is closed after the copy, failed or not.  The copy fails when
the received stream ends with an error or the opened stream cannot be written
to. -/
def communicateUni : List (Option ReceiveStream) → List (Option SendStream) → List SessionOp
  | [], _ => [SessionOp.AcceptUniStream false]
  | none :: _, _ => [SessionOp.AcceptUniStream false]
  | some _ :: _, [] => [SessionOp.AcceptUniStream true, SessionOp.OpenUniStreamSync false]
  | some _ :: _, none :: _ => [SessionOp.AcceptUniStream true, SessionOp.OpenUniStreamSync false]
  | some recvStream :: accepts, some sendStream :: opens =>
    SessionOp.AcceptUniStream true :: SessionOp.OpenUniStreamSync true ::
      SessionOp.Copy (recvStream.failure.isNone && sendStream.writeOk) :: SessionOp.Close ::
      (if recvStream.failure.isNone && sendStream.writeOk then communicateUni accepts opens
       else [])

/-- A run of `handleSession`: the operations of the goroutine that runs
`handleSession`, in order, and the operations of the goroutine started for
`communicateUni` (`none` when it is never started). -/
structure Run where
  handler : List SessionOp
  relayUni : Option (List SessionOp)
  deriving DecidableEq

/-- The method `handleSession`: the connection state is read for the log, the
first unidirectional stream is accepted, the indication is received from it
and validated; each step that fails ends the method.  Then `communicateUni`
is started on its own goroutine, where it meets the unidirectional streams
behind the first, and `communicate` runs on this one.  The result is `none`
only if the decoder runs out of fuel. -/
def Server.handleSession (s : Server) (sess : Session) : Option Run :=
  match sess.acceptUni with
  | [] => some ⟨[SessionOp.ConnectionState, SessionOp.AcceptUniStream false], none⟩
  | none :: _ => some ⟨[SessionOp.ConnectionState, SessionOp.AcceptUniStream false], none⟩
  | some stream :: accepts =>
    match receiveClientIndication stream with
    | none => none
    | some received =>
      if received.err ≠ none then
        some ⟨[SessionOp.ConnectionState, SessionOp.AcceptUniStream true], none⟩
      else if s.validateClientIndication received.indication ≠ none then
        some ⟨[SessionOp.ConnectionState, SessionOp.AcceptUniStream true], none⟩
      else
        some ⟨SessionOp.ConnectionState :: SessionOp.AcceptUniStream true ::
            communicate sess.acceptBidi,
          some (communicateUni accepts sess.openUni)⟩

/-! ## Record sequences -/

/-- A record as a pair of its key and its value. -/
abbrev Record := Nat × GoString

/-- A record fits the wire format: key and length are 16-bit. -/
def Record.WellFormed (r : Record) : Prop := r.1 < 65536 ∧ r.2.length < 65536

instance (r : Record) : Decidable r.WellFormed := by
  unfold Record.WellFormed
  infer_instance

/-- The concatenation of the encodings of the records. -/
def encodeRecords : List Record → List UInt8
  | [] => []
  | r :: rs => encodeRecord r.1 r.2 ++ encodeRecords rs

/-- The value of the last record with the given key, if there is one. -/
def lastValue (key : Nat) (recs : List Record) : Option GoString :=
  (recs.reverse.find? (fun r => r.1 == key)).map (fun r => r.2)

/-- The records with an unknown key, in order: what the decoder logs. -/
def unknownRecords (recs : List Record) : List Record :=
  recs.filter (fun r => r.1 != clientIndicationKeyOrigin && r.1 != clientIndicationKeyPath)

/-- Two limited readers deliver the same thing: the same limit, the same bytes
under the limit, and the same end. -/
def LimitedReader.Same (l l1 : LimitedReader) : Prop :=
  l.N = l1.N ∧ l.R.data.take l.N = l1.R.data.take l1.N ∧ l.endError = l1.endError

/-- The first `n` bytes of a stream alone: a stream cut at `n` bytes ends
there with `io.EOF`; a shorter stream is unchanged. -/
def ReceiveStream.truncate (s : ReceiveStream) (n : Nat) : ReceiveStream :=
  ⟨s.data.take n, if n ≤ s.data.length then none else s.failure⟩

/-! ## Reading from a limited reader -/

theorem readFull_append (l : LimitedReader) (a rest : List UInt8)
    (hd : l.R.data = a ++ rest) (hN : a.length ≤ l.N) :
    readFull l a.length = (Except.ok a, ⟨⟨rest, l.R.failure⟩, l.N - a.length⟩) := by
  have h : a.length ≤ l.avail := by
    simp [LimitedReader.avail, hd, hN]
  simp [readFull, h, hd]

theorem bigEndianUint16_putUint16 (k : Nat) (hk : k < 65536) :
    bigEndianUint16 (UInt8.ofNat (k / 256)) (UInt8.ofNat (k % 256)) = k := by
  have h1 : (UInt8.ofNat (k / 256)).toNat = k / 256 := by
    show (k / 256) % 256 = k / 256
    omega
  have h2 : (UInt8.ofNat (k % 256)).toNat = k % 256 := by
    show (k % 256) % 256 = k % 256
    omega
  simp only [bigEndianUint16, h1, h2]
  omega

theorem binaryReadUint16_append (l : LimitedReader) (k : Nat) (rest : List UInt8)
    (hk : k < 65536) (hd : l.R.data = putUint16 k ++ rest) (hN : 2 ≤ l.N) :
    binaryReadUint16 l = (Except.ok k, ⟨⟨rest, l.R.failure⟩, l.N - 2⟩) := by
  have h := readFull_append l (putUint16 k) rest hd (by simpa [putUint16] using hN)
  have h2 : (putUint16 k).length = 2 := rfl
  rw [h2] at h
  simp only [binaryReadUint16, h, putUint16, bigEndianUint16_putUint16 k hk]

theorem encodeRecord_length (k : Nat) (v : GoString) :
    (encodeRecord k v).length = 4 + v.length := by
  simp [encodeRecord, putUint16]
  omega

/-- One iteration of the loop over a complete record. -/
theorem receiveLoop_record (fuel : Nat) (l : LimitedReader) (ind : ClientIndication)
    (ws : List (Nat × GoString)) (k : Nat) (v : GoString) (rest : List UInt8)
    (hk : k < 65536) (hv : v.length < 65536)
    (hd : l.R.data = encodeRecord k v ++ rest) (hN : 4 + v.length ≤ l.N) :
    receiveLoop (fuel + 1) l ind ws =
      receiveLoop fuel ⟨⟨rest, l.R.failure⟩, l.N - (4 + v.length)⟩
        (setField ind k v) (warnField ws k v) := by
  have e1 := binaryReadUint16_append l k (putUint16 v.length ++ v ++ rest) hk
    (by simp [hd, encodeRecord]) (by omega)
  have e2 := binaryReadUint16_append ⟨⟨putUint16 v.length ++ v ++ rest, l.R.failure⟩, l.N - 2⟩
    v.length (v ++ rest) hv (by simp) (by simp; omega)
  have e3 := readFull_append ⟨⟨v ++ rest, l.R.failure⟩, l.N - 2 - 2⟩ v rest rfl
    (by simp; omega)
  simp only [receiveLoop, e1, e2, e3]
  congr 2
  omega

/-- Several iterations: a reader whose data starts with complete records that
fit under its limit decodes them all and continues behind them. -/
theorem receiveLoop_records (recs : List Record) :
    ∀ (fuel : Nat) (l : LimitedReader) (ind : ClientIndication) (ws : List (Nat × GoString))
      (tail : List UInt8),
      (∀ r ∈ recs, Record.WellFormed r) →
      l.R.data = encodeRecords recs ++ tail →
      (encodeRecords recs).length ≤ l.N →
      receiveLoop (fuel + recs.length) l ind ws =
        receiveLoop fuel ⟨⟨tail, l.R.failure⟩, l.N - (encodeRecords recs).length⟩
          (recs.foldl (fun i r => setField i r.1 r.2) ind)
          (recs.foldl (fun w r => warnField w r.1 r.2) ws) := by
  induction recs with
  | nil =>
    intro fuel l ind ws tail _ hd _
    simp only [encodeRecords, List.nil_append] at hd
    simp [encodeRecords, ← hd]
  | cons r rs ih =>
    intro fuel l ind ws tail hwf hd hN
    have hr : Record.WellFormed r := hwf r (List.mem_cons_self _ _)
    have hlen : (encodeRecords (r :: rs)).length = 4 + r.2.length + (encodeRecords rs).length := by
      simp [encodeRecords, encodeRecord_length]
    rw [hlen] at hN
    have hd1 : l.R.data = encodeRecord r.1 r.2 ++ (encodeRecords rs ++ tail) := by
      simp [hd, encodeRecords]
    have step := receiveLoop_record (fuel + rs.length) l ind ws r.1 r.2
      (encodeRecords rs ++ tail) hr.1 hr.2 hd1 (by omega)
    have hf : fuel + (r :: rs).length = fuel + rs.length + 1 := by simp; omega
    rw [hf, step]
    rw [ih fuel _ _ _ tail (fun x hx => hwf x (List.mem_cons_of_mem _ hx)) rfl
      (by simp; omega)]
    simp only [List.foldl_cons, hlen]
    congr 2
    omega

theorem encodeRecords_length_ge (recs : List Record) :
    4 * recs.length ≤ (encodeRecords recs).length := by
  induction recs with
  | nil => simp [encodeRecords]
  | cons r rs ih =>
    simp [encodeRecords, encodeRecord_length]
    omega

theorem encodeRecords_append (a b : List Record) :
    encodeRecords (a ++ b) = encodeRecords a ++ encodeRecords b := by
  induction a with
  | nil => simp [encodeRecords]
  | cons r rs ih => simp [encodeRecords, ih]

/-- A failed `io.ReadFull`: more bytes are asked for than can be delivered.
The error is not `io.EOF` when at least one byte was read. -/
theorem readFull_short (l : LimitedReader) (m : Nat) (h : l.avail < m) :
    ∃ e l1, readFull l m = (Except.error e, l1) ∧ (0 < l.avail → e ≠ IOError.EOF) ∧
      (l.avail = 0 → e = l.endError) := by
  have h1 : ¬ m ≤ l.avail := by omega
  have hr : readFull l m = (Except.error (if l.endError = IOError.EOF ∧ 0 < l.avail then
      IOError.ErrUnexpectedEOF else l.endError),
      ⟨⟨l.R.data.drop l.avail, l.R.failure⟩, l.N - l.avail⟩) := by
    simp only [readFull, h1, if_false]
  refine ⟨_, _, hr, ?_, ?_⟩
  · intro hpos
    by_cases he : l.endError = IOError.EOF
    · simp [he, hpos]
    · simp [he]
  · intro h0
    simp [h0]

theorem binaryReadUint16_short (l : LimitedReader) (h : l.avail < 2) :
    ∃ e l1, binaryReadUint16 l = (Except.error e, l1) ∧ (0 < l.avail → e ≠ IOError.EOF) ∧
      (l.avail = 0 → e = l.endError) := by
  obtain ⟨e, l1, he, hne, h0⟩ := readFull_short l 2 h
  exact ⟨e, l1, by simp only [binaryReadUint16, he], hne, h0⟩

/-- The loop stops without error when the reader is exhausted at a record
boundary. -/
theorem receiveLoop_exhausted (fuel : Nat) (l : LimitedReader) (ind : ClientIndication)
    (ws : List (Nat × GoString)) (h0 : l.avail = 0) (he : l.endError = IOError.EOF) :
    receiveLoop (fuel + 1) l ind ws = some ⟨ind, none, ws⟩ := by
  obtain ⟨e, l1, hr, _, h⟩ := binaryReadUint16_short l (by omega)
  have : e = IOError.EOF := by rw [h h0, he]
  subst this
  simp only [receiveLoop, hr, if_true]

/-- The loop stops with the stream's error when the stream fails at a record
boundary. -/
theorem receiveLoop_failed (fuel : Nat) (l : LimitedReader) (ind : ClientIndication)
    (ws : List (Nat × GoString)) (h0 : l.avail = 0) (c : Nat)
    (he : l.endError = IOError.stream c) :
    receiveLoop (fuel + 1) l ind ws = some ⟨ind, some (IOError.stream c), ws⟩ := by
  obtain ⟨e, l1, hr, _, h⟩ := binaryReadUint16_short l (by omega)
  have : e = IOError.stream c := by rw [h h0, he]
  subst this
  simp [receiveLoop, hr]

theorem readFull_ok_N (l l1 : LimitedReader) (m : Nat) (v : List UInt8)
    (h : readFull l m = (Except.ok v, l1)) : l1.N + m = l.N := by
  unfold readFull at h
  split at h
  · rename_i hm
    simp only [Prod.mk.injEq] at h
    rw [← h.2]
    have : l.avail ≤ l.N := Nat.min_le_left _ _
    show l.N - m + m = l.N
    omega
  · simp at h

theorem binaryReadUint16_ok_N (l l1 : LimitedReader) (k : Nat)
    (h : binaryReadUint16 l = (Except.ok k, l1)) : l1.N + 2 = l.N := by
  unfold binaryReadUint16 at h
  split at h
  · rename_i b0 b1 l2 hr
    simp only [Prod.mk.injEq] at h
    rw [← h.2]
    exact readFull_ok_N l l2 2 _ hr
  · simp at h
  · simp at h

/-- The loop ends: with four units of fuel per readable byte it returns. -/
theorem receiveLoop_total (fuel : Nat) :
    ∀ (l : LimitedReader) (ind : ClientIndication) (ws : List (Nat × GoString)),
      l.N < 4 * fuel → ∃ r, receiveLoop fuel l ind ws = some r := by
  induction fuel with
  | zero => intro l ind ws h; omega
  | succ n ih =>
    intro l ind ws h
    unfold receiveLoop
    split
    · split <;> exact ⟨_, rfl⟩
    · rename_i key r1 h1
      split
      · exact ⟨_, rfl⟩
      · rename_i len r2 h2
        split
        · exact ⟨_, rfl⟩
        · rename_i value r3 h3
          have a1 := binaryReadUint16_ok_N _ _ _ h1
          have a2 := binaryReadUint16_ok_N _ _ _ h2
          have a3 := readFull_ok_N _ _ _ _ h3
          exact ih r3 _ _ (by omega)

/-- The method `receiveClientIndication` always returns. -/
theorem receiveClientIndication_total (s : ReceiveStream) :
    ∃ r, receiveClientIndication s = some r :=
  receiveLoop_total _ _ _ _ (by simp [LimitReader, maxClientIndicationLength])

/-! ## What a sequence of records decodes to -/

theorem setField_Origin (ind : ClientIndication) (k : Nat) (v : GoString) :
    (setField ind k v).Origin = if k = clientIndicationKeyOrigin then v else ind.Origin := by
  unfold setField
  split
  · rfl
  · split <;> rfl

theorem setField_Path (ind : ClientIndication) (k : Nat) (v : GoString) :
    (setField ind k v).Path = if k = clientIndicationKeyPath then v else ind.Path := by
  unfold setField clientIndicationKeyOrigin clientIndicationKeyPath
  split
  · rename_i h
    subst h
    simp
  · split <;> simp_all

theorem lastValue_append_singleton (key : Nat) (recs : List Record) (r : Record) :
    lastValue key (recs ++ [r]) = if r.1 = key then some r.2 else lastValue key recs := by
  simp only [lastValue, List.reverse_append, List.reverse_cons, List.reverse_nil,
    List.nil_append, List.singleton_append, List.find?_cons]
  by_cases h : r.1 = key
  · simp [h]
  · have : (r.1 == key) = false := by simpa using h
    simp [this, h]

theorem foldl_setField_Origin (recs : List Record) (ind : ClientIndication) :
    (recs.foldl (fun i r => setField i r.1 r.2) ind).Origin =
      (lastValue clientIndicationKeyOrigin recs).getD ind.Origin := by
  induction recs using List.reverseRecOn with
  | nil => simp [lastValue]
  | append_singleton rs r ih =>
    rw [List.foldl_append, lastValue_append_singleton]
    simp only [List.foldl_cons, List.foldl_nil, setField_Origin, ih]
    split <;> simp

theorem foldl_setField_Path (recs : List Record) (ind : ClientIndication) :
    (recs.foldl (fun i r => setField i r.1 r.2) ind).Path =
      (lastValue clientIndicationKeyPath recs).getD ind.Path := by
  induction recs using List.reverseRecOn with
  | nil => simp [lastValue]
  | append_singleton rs r ih =>
    rw [List.foldl_append, lastValue_append_singleton]
    simp only [List.foldl_cons, List.foldl_nil, setField_Path, ih]
    split <;> simp

theorem foldl_warnField (recs : List Record) (ws : List (Nat × GoString)) :
    recs.foldl (fun w r => warnField w r.1 r.2) ws = ws ++ unknownRecords recs := by
  induction recs generalizing ws with
  | nil => simp [unknownRecords]
  | cons r rs ih =>
    rw [List.foldl_cons, ih]
    unfold warnField unknownRecords
    by_cases h0 : r.1 = clientIndicationKeyOrigin
    · simp [h0]
    · by_cases h1 : r.1 = clientIndicationKeyPath
      · simp [h1]
      · simp [h0, h1]

/-- The decoder on complete records followed by `tail`: it decodes the records
and goes on with `tail`, with fuel left. -/
theorem receiveClientIndication_records (recs : List Record) (tail : List UInt8)
    (f : Option Nat) (hwf : ∀ r ∈ recs, Record.WellFormed r)
    (hlen : (encodeRecords recs).length ≤ maxClientIndicationLength) :
    ∃ fuel, receiveClientIndication ⟨encodeRecords recs ++ tail, f⟩ =
      receiveLoop (fuel + 1)
        ⟨⟨tail, f⟩, maxClientIndicationLength - (encodeRecords recs).length⟩
        (recs.foldl (fun i r => setField i r.1 r.2) ⟨[], []⟩)
        ([] ++ unknownRecords recs) := by
  have h4 := encodeRecords_length_ge recs
  refine ⟨maxClientIndicationLength - recs.length, ?_⟩
  have hf : maxClientIndicationLength + 1 =
      (maxClientIndicationLength - recs.length + 1) + recs.length := by omega
  unfold receiveClientIndication
  rw [hf, receiveLoop_records recs _ _ _ _ tail hwf rfl hlen, foldl_warnField]
  rfl

/-- Complete records that fit the cap decode without error, to the fields
the records set and the warnings for the others. -/
theorem receiveClientIndication_complete (recs : List Record)
    (hwf : ∀ r ∈ recs, Record.WellFormed r)
    (hlen : (encodeRecords recs).length ≤ maxClientIndicationLength) :
    receiveClientIndication (ReceiveStream.ofBytes (encodeRecords recs)) =
      some ⟨⟨(lastValue clientIndicationKeyOrigin recs).getD [],
             (lastValue clientIndicationKeyPath recs).getD []⟩, none, unknownRecords recs⟩ := by
  obtain ⟨fuel, h⟩ := receiveClientIndication_records recs [] none hwf hlen
  rw [List.append_nil] at h
  rw [ReceiveStream.ofBytes, h, receiveLoop_exhausted _ _ _ _ (by simp [LimitedReader.avail])
    (by simp [LimitedReader.endError, ReceiveStream.endError])]
  have ho := foldl_setField_Origin recs ⟨[], []⟩
  have hp := foldl_setField_Path recs ⟨[], []⟩
  generalize recs.foldl (fun i r => setField i r.1 r.2) ⟨[], []⟩ = res at ho hp
  cases res
  simp only at ho hp
  simp [ho, hp]

theorem encodeClientIndication_eq (ind : ClientIndication) :
    encodeClientIndication ind =
      encodeRecords [(clientIndicationKeyOrigin, ind.Origin), (clientIndicationKeyPath, ind.Path)] := by
  simp [encodeClientIndication, encodeRecords]

/-- A record whose value does not fit under the reader's limit: the value
read fails. -/
theorem receiveLoop_record_cut (fuel : Nat) (l : LimitedReader) (ind : ClientIndication)
    (ws : List (Nat × GoString)) (k : Nat) (v : GoString) (rest : List UInt8)
    (hk : k < 65536) (hv : v.length < 65536)
    (hd : l.R.data = encodeRecord k v ++ rest) (hN : 4 < l.N) (hcut : l.N < 4 + v.length) :
    receiveLoop (fuel + 1) l ind ws = some ⟨ind, some IOError.ErrUnexpectedEOF, ws⟩ := by
  have e1 := binaryReadUint16_append l k (putUint16 v.length ++ v ++ rest) hk
    (by simp [hd, encodeRecord]) (by omega)
  have e2 := binaryReadUint16_append ⟨⟨putUint16 v.length ++ v ++ rest, l.R.failure⟩, l.N - 2⟩
    v.length (v ++ rest) hv (by simp) (by simp; omega)
  have hav : (⟨⟨v ++ rest, l.R.failure⟩, l.N - 2 - 2⟩ : LimitedReader).avail = l.N - 4 := by
    simp only [LimitedReader.avail, List.length_append]
    omega
  have hend : (⟨⟨v ++ rest, l.R.failure⟩, l.N - 2 - 2⟩ : LimitedReader).endError = IOError.EOF := by
    simp only [LimitedReader.endError, List.length_append]
    rw [if_pos (by omega)]
  have e3 : readFull ⟨⟨v ++ rest, l.R.failure⟩, l.N - 2 - 2⟩ v.length =
      (Except.error IOError.ErrUnexpectedEOF,
        ⟨⟨(v ++ rest).drop (l.N - 4), l.R.failure⟩, l.N - 2 - 2 - (l.N - 4)⟩) := by
    have hnot : ¬ v.length ≤ l.N - 4 := by omega
    have hpos : 0 < l.N - 4 := by omega
    simp only [readFull, hav, hend, hnot, hpos, if_false, and_self, if_true]
  simp only [receiveLoop, e1, e2, e3]

theorem lastValue_insert_other (key : Nat) (a b : List Record) (r : Record) (h : r.1 ≠ key) :
    lastValue key (a ++ r :: b) = lastValue key (a ++ b) := by
  have hb : (r.1 == key) = false := by simpa using h
  simp [lastValue, List.find?_append, List.find?_cons, hb]

/-- The loop on a reader that holds nothing but a non-empty proper prefix of a
record stops with an error. -/
theorem receiveLoop_truncated (fuel : Nat) (l : LimitedReader) (ind : ClientIndication)
    (ws : List (Nat × GoString)) (k : Nat) (v : GoString) (p : List UInt8)
    (hk : k < 65536) (hv : v.length < 65536)
    (hd : l.R.data = p) (hN : p.length ≤ l.N)
    (hpre : p <+: encodeRecord k v) (hne : p ≠ []) (hproper : p ≠ encodeRecord k v) :
    ∃ e, receiveLoop (fuel + 1) l ind ws = some ⟨ind, some e, ws⟩ := by
  have hpos : 0 < p.length := List.length_pos.mpr hne
  have hlt : p.length < 4 + v.length := by
    have h1 := hpre.length_le
    rw [encodeRecord_length] at h1
    rcases Nat.lt_or_ge p.length (4 + v.length) with h | h
    · exact h
    · exfalso
      apply hproper
      exact hpre.eq_of_length (by rw [encodeRecord_length]; omega)
  have htake : p = (putUint16 k ++ (putUint16 v.length ++ v)).take p.length := by
    have := List.prefix_iff_eq_take.mp hpre
    rw [encodeRecord, List.append_assoc] at this
    exact this
  have hav : l.avail = p.length := by
    simp only [LimitedReader.avail, hd]
    omega
  have h2 : (putUint16 k).length = 2 := rfl
  have h2v : (putUint16 v.length).length = 2 := rfl
  rcases Nat.lt_or_ge p.length 2 with hlt2 | hge2
  · -- cut inside the key
    obtain ⟨e, l1, hr, hne', _⟩ := binaryReadUint16_short l (by omega)
    have hneof : e ≠ IOError.EOF := hne' (by omega)
    exact ⟨e, by simp only [receiveLoop, hr, hneof, if_false]⟩
  · rw [List.take_append_eq_append_take, List.take_of_length_le (by omega), h2] at htake
    have e1 := binaryReadUint16_append l k _ hk (hd.trans htake) (by omega)
    rcases Nat.lt_or_ge p.length 4 with hlt4 | hge4
    · -- cut after the key or inside the length
      obtain ⟨e, l1, hr, _, _⟩ := binaryReadUint16_short
        ⟨⟨(putUint16 v.length ++ v).take (p.length - 2), l.R.failure⟩, l.N - 2⟩
        (by
          simp only [LimitedReader.avail, List.length_take]
          omega)
      exact ⟨if e = IOError.EOF then IOError.ErrUnexpectedEOF else e,
        by simp only [receiveLoop, e1, hr]⟩
    · -- cut inside the value
      rw [List.take_append_eq_append_take, List.take_of_length_le (by omega), h2v] at htake
      rw [List.take_append_eq_append_take, List.take_of_length_le (by omega), h2v] at e1
      have e2 := binaryReadUint16_append
        ⟨⟨putUint16 v.length ++ v.take (p.length - 2 - 2), l.R.failure⟩, l.N - 2⟩
        v.length (v.take (p.length - 2 - 2)) hv rfl (by simp; omega)
      obtain ⟨e, l1, hr, _, _⟩ := readFull_short
        ⟨⟨v.take (p.length - 2 - 2), l.R.failure⟩, l.N - 2 - 2⟩ v.length
        (by
          simp only [LimitedReader.avail, List.length_take]
          omega)
      exact ⟨e, by simp only [receiveLoop, e1, e2, hr]⟩

/-! ## The reader's limit -/

theorem LimitedReader.Same.avail_eq {l l1 : LimitedReader} (h : l.Same l1) :
    l.avail = l1.avail := by
  have := congrArg List.length h.2.1
  simpa [LimitedReader.avail] using this

theorem readFull_same (l l1 : LimitedReader) (m : Nat) (h : l.Same l1) :
    (readFull l m).1 = (readFull l1 m).1 ∧ (readFull l m).2.Same (readFull l1 m).2 := by
  have hav := h.avail_eq
  obtain ⟨hN, ht, he⟩ := h
  have avN : l.avail ≤ l.N := Nat.min_le_left _ _
  have avL : l.avail ≤ l.R.data.length := Nat.min_le_right _ _
  have avN1 : l1.avail ≤ l1.N := Nat.min_le_left _ _
  have avL1 : l1.avail ≤ l1.R.data.length := Nat.min_le_right _ _
  have avdef : l.avail = min l.N l.R.data.length := rfl
  have avdef1 : l1.avail = min l1.N l1.R.data.length := rfl
  -- the bytes under the limit, cut or dropped at `j`, agree
  have htake : ∀ j, j ≤ l.N → l.R.data.take j = l1.R.data.take j := by
    intro j hj
    have := congrArg (List.take j) ht
    rw [List.take_take, List.take_take, Nat.min_eq_left hj, Nat.min_eq_left (hN ▸ hj)] at this
    exact this
  have hdrop : ∀ j, (l.R.data.drop j).take (l.N - j) = (l1.R.data.drop j).take (l1.N - j) := by
    intro j
    have := congrArg (List.drop j) ht
    rw [List.drop_take, List.drop_take] at this
    exact this
  have hend : ∀ j, j ≤ l.avail →
      (⟨⟨l.R.data.drop j, l.R.failure⟩, l.N - j⟩ : LimitedReader).endError =
        (⟨⟨l1.R.data.drop j, l1.R.failure⟩, l1.N - j⟩ : LimitedReader).endError := by
    intro j hj
    have e1 : (⟨⟨l.R.data.drop j, l.R.failure⟩, l.N - j⟩ : LimitedReader).endError =
        l.endError := by
      simp only [LimitedReader.endError, List.length_drop, ReceiveStream.endError]
      by_cases hc : l.N ≤ l.R.data.length
      · rw [if_pos hc, if_pos (by omega)]
      · rw [if_neg hc, if_neg (by omega)]
    have e2 : (⟨⟨l1.R.data.drop j, l1.R.failure⟩, l1.N - j⟩ : LimitedReader).endError =
        l1.endError := by
      simp only [LimitedReader.endError, List.length_drop, ReceiveStream.endError]
      by_cases hc : l1.N ≤ l1.R.data.length
      · rw [if_pos hc, if_pos (by omega)]
      · rw [if_neg hc, if_neg (by omega)]
    rw [e1, e2, he]
  unfold readFull
  by_cases hm : m ≤ l.avail
  · have hm1 : m ≤ l1.avail := hav ▸ hm
    rw [if_pos hm, if_pos hm1]
    refine ⟨?_, ?_, ?_, ?_⟩
    · simp only
      rw [htake m (by omega)]
    · show l.N - m = l1.N - m
      rw [hN]
    · exact hdrop m
    · exact hend m hm
  · have hm1 : ¬ m ≤ l1.avail := hav ▸ hm
    rw [if_neg hm, if_neg hm1]
    refine ⟨?_, ?_, ?_, ?_⟩
    · simp only
      rw [he, hav]
    · show l.N - l.avail = l1.N - l1.avail
      rw [hN, hav]
    · have := hdrop l.avail
      rw [hav] at this ⊢
      exact this
    · have := hend l.avail (le_refl _)
      rw [hav] at this ⊢
      exact this

theorem binaryReadUint16_same (l l1 : LimitedReader) (h : l.Same l1) :
    (binaryReadUint16 l).1 = (binaryReadUint16 l1).1 ∧
      (binaryReadUint16 l).2.Same (binaryReadUint16 l1).2 := by
  obtain ⟨h1, h2⟩ := readFull_same l l1 2 h
  unfold binaryReadUint16
  rcases hr : readFull l 2 with ⟨x, r⟩
  rcases hr1 : readFull l1 2 with ⟨x1, r1⟩
  rw [hr, hr1] at h1 h2
  simp only at h1 h2
  subst h1
  cases x with
  | error e => exact ⟨rfl, h2⟩
  | ok bs =>
    rcases bs with _ | ⟨b0, _ | ⟨b1, _ | ⟨b2, bs⟩⟩⟩ <;> exact ⟨rfl, h2⟩

/-- The loop sees of its reader only what lies under the limit. -/
theorem receiveLoop_same (fuel : Nat) :
    ∀ (l l1 : LimitedReader) (ind : ClientIndication) (ws : List (Nat × GoString)),
      l.Same l1 → receiveLoop fuel l ind ws = receiveLoop fuel l1 ind ws := by
  induction fuel with
  | zero => intro l l1 ind ws _; rfl
  | succ n ih =>
    intro l l1 ind ws h
    obtain ⟨a1, a2⟩ := binaryReadUint16_same l l1 h
    unfold receiveLoop
    rcases hr : binaryReadUint16 l with ⟨x, r⟩
    rcases hr1 : binaryReadUint16 l1 with ⟨x1, r1⟩
    rw [hr, hr1] at a1 a2
    simp only at a1 a2
    subst a1
    cases x with
    | error e => rfl
    | ok key =>
      simp only
      obtain ⟨b1, b2⟩ := binaryReadUint16_same r r1 a2
      rcases hs : binaryReadUint16 r with ⟨y, s⟩
      rcases hs1 : binaryReadUint16 r1 with ⟨y1, s1⟩
      rw [hs, hs1] at b1 b2
      simp only at b1 b2
      subst b1
      cases y with
      | error e => rfl
      | ok len =>
        simp only
        obtain ⟨c1, c2⟩ := readFull_same s s1 len b2
        rcases ht : readFull s len with ⟨z, t⟩
        rcases ht1 : readFull s1 len with ⟨z1, t1⟩
        rw [ht, ht1] at c1 c2
        simp only at c1 c2
        subst c1
        cases z with
        | error e => rfl
        | ok value =>
          simp only
          exact ih t t1 _ _ c2

theorem LimitReader_truncate_same (s : ReceiveStream) (n : Nat) :
    (LimitReader s n).Same (LimitReader (s.truncate n) n) := by
  refine ⟨rfl, ?_, ?_⟩
  · simp [LimitReader, ReceiveStream.truncate, List.take_take]
  · simp only [LimitReader, ReceiveStream.truncate, LimitedReader.endError,
      ReceiveStream.endError, List.length_take]
    by_cases h : n ≤ s.data.length
    · rw [if_pos h, if_pos (by omega)]
    · rw [if_neg h, if_neg (by omega), if_neg h]

/-! ## Parsed URLs -/

theorem parseAuthorityAndPath_keeps (url r : URL) (rest : GoString)
    (h : parseAuthorityAndPath url rest = Except.ok r) :
    r.Scheme = url.Scheme ∧ r.Opaque = url.Opaque := by
  unfold parseAuthorityAndPath at h
  split at h
  · simp only at h
    split at h
    · exact absurd h (by simp)
    · split at h
      · exact absurd h (by simp)
      · simp only [Except.ok.injEq] at h
        subst h
        exact ⟨rfl, rfl⟩
  · split at h
    · exact absurd h (by simp)
    · simp only [Except.ok.injEq] at h
      subst h
      exact ⟨rfl, rfl⟩

theorem parseAfterQuery_keeps (url r : URL) (rest : GoString)
    (h : parseAfterQuery url rest = Except.ok r) :
    r.Scheme = url.Scheme ∧ (r.Scheme = [] → r.Opaque = url.Opaque) := by
  unfold parseAfterQuery at h
  split at h
  · split at h
    · rename_i hne
      simp only [Except.ok.injEq] at h
      subst h
      exact ⟨rfl, fun hs => absurd hs hne⟩
    · split at h
      · exact absurd h (by simp)
      · obtain ⟨h1, h2⟩ := parseAuthorityAndPath_keeps _ _ _ h
        exact ⟨h1, fun _ => h2⟩
  · obtain ⟨h1, h2⟩ := parseAuthorityAndPath_keeps _ _ _ h
    exact ⟨h1, fun _ => h2⟩

theorem parse_opaque (s : GoString) (r : URL) (h : parse s = Except.ok r)
    (hs : r.Scheme = []) : r.Opaque = [] := by
  unfold parse at h
  split at h
  · exact absurd h (by simp)
  · split at h
    · simp only [Except.ok.injEq] at h
      subst h
      rfl
    · split at h
      · exact absurd h (by simp)
      · split at h
        · exact (parseAfterQuery_keeps _ _ _ h).2 hs
        · exact (parseAfterQuery_keeps _ _ _ h).2 hs

/-- A URL that `url.Parse` returns without a scheme is not opaque. -/
theorem urlParse_opaque (s : GoString) (r : URL) (h : urlParse s = Except.ok r)
    (hs : r.Scheme = []) : r.Opaque = [] := by
  unfold urlParse at h
  simp only at h
  split at h
  · exact absurd h (by simp)
  · rename_i url hp
    split at h
    · simp only [Except.ok.injEq] at h
      subst h
      exact parse_opaque _ _ hp hs
    · split at h
      · exact absurd h (by simp)
      · simp only [Except.ok.injEq] at h
        subst h
        exact parse_opaque _ url hp hs

/-- A reference without scheme, host and user information resolves to the
host of the base. -/
theorem ParseHost_relative (u ref : URL) (path : GoString)
    (hp : urlParse path = Except.ok ref) (hs : ref.Scheme = []) (hh : ref.Host = [])
    (hu : ref.User = none) : u.ParseHost path = Except.ok u.Host := by
  have ho := urlParse_opaque path ref hp hs
  simp [URL.ParseHost, hp, resolveReferenceHost, hs, hh, hu, ho]

/-! ## The allow-list -/

theorem isOriginAllowd_iff (s : Server) (h : GoString) :
    s.isOriginAllowd h = true ↔
      ∃ o ∈ s.AllowedOrigins, stringsToLower s.unicodeLower o = stringsToLower s.unicodeLower h := by
  simp [Server.isOriginAllowd, Server.allowedOriginTable]

theorem stringsToLower_nil (f : GoString → GoString) : stringsToLower f [] = [] := rfl

/-- The method `validateClientIndication` once the origin parses and the
non-empty path resolves: the outcome is the allow-list lookup of the resolved
host. -/
theorem validate_resolved (s : Server) (ind : ClientIndication) (u : URL) (host : GoString)
    (ho : urlParse ind.Origin = Except.ok u) (hp : ind.Path ≠ [])
    (hr : u.ParseHost ind.Path = Except.ok host) :
    s.validateClientIndication ind =
      if s.isOriginAllowd host then none else some ValidationError.errBadOrigin := by
  simp only [Server.validateClientIndication, ho, hp, hr, if_false]
  cases s.isOriginAllowd host <;> rfl

/-! ## Claims about the decoder -/

/-- C1 (as stated, refuted): an indication whose origin has 65535 bytes and
whose path is "/" meets the conditions of the round-trip claim, but its
encoding has 65544 bytes, the decoder reads only the first 65535 of them, and
the read of the origin's value fails with `io.ErrUnexpectedEOF`. -/
theorem roundtrip_fails_beyond_cap :
    (List.replicate 65535 (0x61 : UInt8) ≠ [] ∧ [(0x2f : UInt8)] ≠ [] ∧
      (List.replicate 65535 (0x61 : UInt8)).length ≤ 65535 ∧ [(0x2f : UInt8)].length ≤ 65535) ∧
    receiveClientIndication (ReceiveStream.ofBytes
        (encodeClientIndication ⟨List.replicate 65535 0x61, [0x2f]⟩)) =
      some ⟨⟨[], []⟩, some IOError.ErrUnexpectedEOF, []⟩ := by
  generalize hv : List.replicate 65535 (0x61 : UInt8) = v
  have hlen : v.length = 65535 := by rw [← hv, List.length_replicate]
  refine ⟨⟨?_, List.cons_ne_nil _ _, by omega, Nat.le_of_ble_eq_true rfl⟩, ?_⟩
  · intro h
    rw [h] at hlen
    exact absurd hlen (by decide)
  · have hmax : maxClientIndicationLength = 65535 := rfl
    exact receiveLoop_record_cut maxClientIndicationLength
      (LimitReader (ReceiveStream.ofBytes (encodeClientIndication ⟨v, [0x2f]⟩))
        maxClientIndicationLength) ⟨[], []⟩ [] clientIndicationKeyOrigin v
      (encodeRecord clientIndicationKeyPath [0x2f]) (by decide) (by omega) rfl
      (by show 4 < maxClientIndicationLength; omega)
      (by show maxClientIndicationLength < 4 + v.length; omega)

/-- C1 (amended): round trip under the cap.  For every indication whose origin
and path are non-empty and whose encoding fits in the 65535 bytes the decoder
reads (`8 + len(origin) + len(path) ≤ 65535`), decoding the encoding returns
no error and the original indication (and logs no warning). -/
theorem roundtrip_within_cap (ind : ClientIndication)
    (_ho : ind.Origin ≠ []) (_hp : ind.Path ≠ [])
    (hcap : 8 + ind.Origin.length + ind.Path.length ≤ maxClientIndicationLength) :
    receiveClientIndication (ReceiveStream.ofBytes (encodeClientIndication ind)) =
      some ⟨ind, none, []⟩ := by
  have hmax : maxClientIndicationLength = 65535 := rfl
  rw [encodeClientIndication_eq, receiveClientIndication_complete]
  · cases ind
    simp [lastValue, unknownRecords, clientIndicationKeyOrigin, clientIndicationKeyPath]
  · intro r hr
    simp only [List.mem_cons, List.mem_singleton, List.not_mem_nil, or_false] at hr
    rcases hr with h | h <;> subst h <;>
      simp only [Record.WellFormed, clientIndicationKeyOrigin, clientIndicationKeyPath] <;>
      omega
  · simp only [encodeRecords, List.length_append, encodeRecord_length, List.length_nil]
    omega

/-- Witness of `roundtrip_within_cap`: origin "https://example.com", path
"/app". -/
theorem roundtrip_within_cap_witness :
    receiveClientIndication (ReceiveStream.ofBytes
        (encodeClientIndication ⟨str "https://example.com", str "/app"⟩)) =
      some ⟨⟨str "https://example.com", str "/app"⟩, none, []⟩ :=
  roundtrip_within_cap ⟨str "https://example.com", str "/app"⟩ (by decide) (by decide)
    (by decide)

/-- C5: clean termination.  Every input of at most 65535 bytes that is a
concatenation of complete records decodes with a nil error, and the empty
input decodes to the indication with empty origin and path. -/
theorem clean_termination :
    (∀ recs : List Record, (∀ r ∈ recs, Record.WellFormed r) →
      (encodeRecords recs).length ≤ 65535 →
      ∃ res, receiveClientIndication (ReceiveStream.ofBytes (encodeRecords recs)) = some res ∧
        res.err = none) ∧
    receiveClientIndication (ReceiveStream.ofBytes []) = some ⟨⟨[], []⟩, none, []⟩ := by
  refine ⟨fun recs hwf hlen => ⟨_, receiveClientIndication_complete recs hwf hlen, rfl⟩, ?_⟩
  exact receiveClientIndication_complete [] (by simp) (by simp [encodeRecords])

/-- Witness of `clean_termination`: an unknown record, a path and an origin. -/
theorem clean_termination_witness :
    ∃ res, receiveClientIndication (ReceiveStream.ofBytes
        (encodeRecords [(7, [5]), (1, str "/app"), (0, str "https://example.com")])) = some res ∧
      res.err = none :=
  clean_termination.1 [(7, [5]), (1, str "/app"), (0, str "https://example.com")]
    (by decide) (by decide)

/-- C4: truncation.  Every input of at most 65535 bytes that consists of
complete records followed by a non-empty proper prefix of a record makes
`receiveClientIndication` return a non-nil error. -/
theorem truncation_is_an_error (recs : List Record) (r : Record) (p : List UInt8)
    (hwf : ∀ x ∈ recs, Record.WellFormed x) (hr : Record.WellFormed r)
    (hpre : p <+: encodeRecord r.1 r.2) (hne : p ≠ []) (hproper : p ≠ encodeRecord r.1 r.2)
    (hlen : (encodeRecords recs ++ p).length ≤ 65535) :
    ∃ res e, receiveClientIndication (ReceiveStream.ofBytes (encodeRecords recs ++ p)) = some res ∧
      res.err = some e := by
  have hmax : maxClientIndicationLength = 65535 := rfl
  rw [List.length_append] at hlen
  obtain ⟨fuel, h⟩ := receiveClientIndication_records recs p none hwf (by omega)
  obtain ⟨e, he⟩ := receiveLoop_truncated fuel
    ⟨⟨p, none⟩, maxClientIndicationLength - (encodeRecords recs).length⟩
    (recs.foldl (fun i x => setField i x.1 x.2) ⟨[], []⟩) ([] ++ unknownRecords recs)
    r.1 r.2 p hr.1 hr.2 rfl
    (by show p.length ≤ maxClientIndicationLength - (encodeRecords recs).length; omega)
    hpre hne hproper
  exact ⟨_, e, by rw [ReceiveStream.ofBytes, h, he], rfl⟩

/-- Witness of `truncation_is_an_error`: a complete origin record followed by
a path record cut inside its value. -/
theorem truncation_is_an_error_witness :
    ∃ res e, receiveClientIndication (ReceiveStream.ofBytes
        (encodeRecords [(0, str "https://example.com")] ++ [0, 1, 0, 4, 0x2f, 0x61])) = some res ∧
      res.err = some e :=
  truncation_is_an_error [(0, str "https://example.com")] (1, str "/app") [0, 1, 0, 4, 0x2f, 0x61]
    (by decide) (by decide) (by decide) (by decide) (by decide) (by decide)

/-- C6: last occurrence wins.  For every input of at most 65535 bytes that is
a concatenation of complete records, the decoder returns no error, the origin
is the value of the last record with key `0x0000` and the path the value of
the last record with key `0x0001` (empty when there is none); and a record
with another key inserted at a record boundary changes neither the indication
nor the error. -/
theorem last_occurrence_wins :
    (∀ recs : List Record, (∀ x ∈ recs, Record.WellFormed x) →
      (encodeRecords recs).length ≤ 65535 →
      ∃ res, receiveClientIndication (ReceiveStream.ofBytes (encodeRecords recs)) = some res ∧
        res.err = none ∧
        res.indication.Origin = (lastValue 0x0000 recs).getD [] ∧
        res.indication.Path = (lastValue 0x0001 recs).getD []) ∧
    (∀ (a b : List Record) (r : Record), (∀ x ∈ a, Record.WellFormed x) →
      (∀ x ∈ b, Record.WellFormed x) → Record.WellFormed r → r.1 ≠ 0x0000 → r.1 ≠ 0x0001 →
      (encodeRecords a ++ encodeRecord r.1 r.2 ++ encodeRecords b).length ≤ 65535 →
      ∃ res res',
        receiveClientIndication
          (ReceiveStream.ofBytes (encodeRecords a ++ encodeRecords b)) = some res ∧
        receiveClientIndication
          (ReceiveStream.ofBytes (encodeRecords a ++ encodeRecord r.1 r.2 ++ encodeRecords b)) =
            some res' ∧
        res'.indication = res.indication ∧ res'.err = res.err) := by
  have hmax : maxClientIndicationLength = 65535 := rfl
  constructor
  · intro recs hwf hlen
    exact ⟨_, receiveClientIndication_complete recs hwf (by omega), rfl, rfl, rfl⟩
  · intro a b r ha hb hr h0 h1 hlen
    have e1 : encodeRecords a ++ encodeRecords b = encodeRecords (a ++ b) :=
      (encodeRecords_append a b).symm
    have e2 : encodeRecords a ++ encodeRecord r.1 r.2 ++ encodeRecords b =
        encodeRecords (a ++ r :: b) := by
      rw [encodeRecords_append, encodeRecords, List.append_assoc]
    have hwf1 : ∀ x ∈ a ++ b, Record.WellFormed x := by
      intro x hx
      rcases List.mem_append.mp hx with h | h
      · exact ha x h
      · exact hb x h
    have hwf2 : ∀ x ∈ a ++ r :: b, Record.WellFormed x := by
      intro x hx
      rcases List.mem_append.mp hx with h | h
      · exact ha x h
      · rcases List.mem_cons.mp h with h | h
        · exact h ▸ hr
        · exact hb x h
    have hl1 : (encodeRecords (a ++ b)).length ≤ maxClientIndicationLength := by
      rw [← e1]
      simp only [List.length_append] at hlen ⊢
      omega
    have hl2 : (encodeRecords (a ++ r :: b)).length ≤ maxClientIndicationLength := by
      rw [← e2]
      omega
    have r1 := receiveClientIndication_complete _ hwf1 hl1
    have r2 := receiveClientIndication_complete _ hwf2 hl2
    rw [← e1] at r1
    rw [← e2] at r2
    refine ⟨_, _, r1, r2, ?_, rfl⟩
    simp only [lastValue_insert_other _ a b r h0, lastValue_insert_other _ a b r h1,
        clientIndicationKeyOrigin, clientIndicationKeyPath]

/-- Witness of `last_occurrence_wins`: two origin records around an unknown
record and a path record; the second origin is returned. -/
theorem last_occurrence_wins_witness :
    ∃ res, receiveClientIndication (ReceiveStream.ofBytes (encodeRecords
        [(0, str "https://a.example"), (7, [5, 6]), (1, str "/app"),
          (0, str "https://example.com")])) = some res ∧
      res.err = none ∧
      res.indication.Origin = (lastValue 0x0000
        [(0, str "https://a.example"), (7, [5, 6]), (1, str "/app"),
          (0, str "https://example.com")]).getD [] ∧
      res.indication.Path = (lastValue 0x0001
        [(0, str "https://a.example"), (7, [5, 6]), (1, str "/app"),
          (0, str "https://example.com")]).getD [] :=
  last_occurrence_wins.1
    [(0, str "https://a.example"), (7, [5, 6]), (1, str "/app"), (0, str "https://example.com")]
    (by decide) (by decide)

/-- C7: the decoder is bounded to 65535 input bytes.  On every stream
`receiveClientIndication` returns, and it returns the same indication, the
same error and the same warnings as on the first 65535 bytes of the stream
alone; so two streams of at least 65535 bytes that agree on their first 65535
bytes give the same result, whatever follows and however they end. -/
theorem bounded_to_cap :
    (∀ s : ReceiveStream, ∃ res, receiveClientIndication s = some res ∧
      receiveClientIndication (s.truncate 65535) = some res) ∧
    (∀ s t : ReceiveStream, s.data.take 65535 = t.data.take 65535 →
      65535 ≤ s.data.length → 65535 ≤ t.data.length →
      receiveClientIndication s = receiveClientIndication t) := by
  have key : ∀ s : ReceiveStream,
      receiveClientIndication s = receiveClientIndication (s.truncate 65535) := fun s =>
    receiveLoop_same _ _ _ _ _ (LimitReader_truncate_same s maxClientIndicationLength)
  constructor
  · intro s
    obtain ⟨res, h⟩ := receiveClientIndication_total s
    exact ⟨res, h, by rw [← key, h]⟩
  · intro s t hst hs ht
    rw [key s, key t]
    simp only [ReceiveStream.truncate, hst, if_pos hs, if_pos ht]

/-- Witness of `bounded_to_cap`: 65535 zero bytes followed by one byte and a
clean end, against the same 65535 bytes followed by two other bytes and a
stream error. -/
theorem bounded_to_cap_witness :
    receiveClientIndication ⟨List.replicate 65535 0 ++ [1], none⟩ =
      receiveClientIndication ⟨List.replicate 65535 0 ++ [2, 3], some 7⟩ :=
  bounded_to_cap.2 ⟨List.replicate 65535 0 ++ [1], none⟩
    ⟨List.replicate 65535 0 ++ [2, 3], some 7⟩
    (by
      show (List.replicate 65535 (0 : UInt8) ++ [1]).take 65535 =
        (List.replicate 65535 (0 : UInt8) ++ [2, 3]).take 65535
      rw [List.take_left' (List.length_replicate _ _), List.take_left' (List.length_replicate _ _)])
    (by
      show 65535 ≤ (List.replicate 65535 (0 : UInt8) ++ [1]).length
      rw [List.length_append, List.length_replicate]
      exact Nat.le_add_right _ _)
    (by
      show 65535 ≤ (List.replicate 65535 (0 : UInt8) ++ [2, 3]).length
      rw [List.length_append, List.length_replicate]
      exact Nat.le_add_right _ _)

/-! ## Claims about authorization

In the concrete cases below every string is ASCII, so `strings.ToLower`
never reaches its Unicode branch and the `unicodeLower` component of the
server (taken to be the identity) plays no part. -/

/-- C2 (as stated, refuted): with the allow-list ["example.com"], the
indication with origin "https://evil.com" is accepted when its path is the
absolute URL "https://example.com/app" and when it is the scheme-relative
"//example.com/app", although the host of its origin, "evil.com", is not on
the allow-list; and with the empty path it is rejected with the bad-path
error, not the bad-origin error. -/
theorem origin_check_bypassed_by_path :
    (urlParse (str "https://evil.com")).map (fun u => u.Host) = Except.ok (str "evil.com") ∧
    Server.isOriginAllowd ⟨[str "example.com"], id⟩ (str "evil.com") = false ∧
    Server.validateClientIndication ⟨[str "example.com"], id⟩
      ⟨str "https://evil.com", str "https://example.com/app"⟩ = none ∧
    Server.validateClientIndication ⟨[str "example.com"], id⟩
      ⟨str "https://evil.com", str "//example.com/app"⟩ = none ∧
    Server.validateClientIndication ⟨[str "example.com"], id⟩
      ⟨str "https://evil.com", str ""⟩ = some ValidationError.errBadPath := by
  decide

/-- C2 (amended): authorization is decided by the origin when the path is a
relative reference.  For every allow-list and every indication whose path
parses without a scheme, a host and user information of its own: if
`validateClientIndication` returns nil then the origin parses and its host is
(ignoring case) an entry of the allow-list; and if the origin parses, its host
is not on the allow-list and the path is not empty, the indication is rejected
with the bad-origin error. -/
theorem origin_decides_for_relative_path (s : Server) (ind : ClientIndication) (ref : URL)
    (hp : urlParse ind.Path = Except.ok ref) (hs : ref.Scheme = []) (hh : ref.Host = [])
    (hu : ref.User = none) :
    (s.validateClientIndication ind = none →
      ∃ u, urlParse ind.Origin = Except.ok u ∧
        ∃ o ∈ s.AllowedOrigins,
          stringsToLower s.unicodeLower o = stringsToLower s.unicodeLower u.Host) ∧
    (∀ u, urlParse ind.Origin = Except.ok u →
      (¬ ∃ o ∈ s.AllowedOrigins,
          stringsToLower s.unicodeLower o = stringsToLower s.unicodeLower u.Host) →
      ind.Path ≠ [] →
      s.validateClientIndication ind = some ValidationError.errBadOrigin) := by
  constructor
  · intro hv
    cases ho : urlParse ind.Origin with
    | error e => simp [Server.validateClientIndication, ho] at hv
    | ok u =>
      refine ⟨u, rfl, ?_⟩
      by_cases hpe : ind.Path = []
      · simp [Server.validateClientIndication, ho, hpe] at hv
      · rw [validate_resolved s ind u u.Host ho hpe (ParseHost_relative u ref _ hp hs hh hu)] at hv
        by_cases ha : s.isOriginAllowd u.Host = true
        · exact (isOriginAllowd_iff s u.Host).mp ha
        · simp [ha] at hv
  · intro u ho hnot hpe
    rw [validate_resolved s ind u u.Host ho hpe (ParseHost_relative u ref _ hp hs hh hu)]
    have ha : ¬ s.isOriginAllowd u.Host = true := fun h => hnot ((isOriginAllowd_iff s u.Host).mp h)
    simp [ha]

/-- Witness of `origin_decides_for_relative_path`: the path "/app" under the
allow-list ["example.com"], with the origin "https://evil.com". -/
theorem origin_decides_for_relative_path_witness :
    Server.validateClientIndication ⟨[str "example.com"], id⟩
      ⟨str "https://evil.com", str "/app"⟩ = some ValidationError.errBadOrigin :=
  (origin_decides_for_relative_path ⟨[str "example.com"], id⟩
      ⟨str "https://evil.com", str "/app"⟩ { Path := str "/app" } (by decide) rfl rfl rfl).2
    { Scheme := str "https", Host := str "evil.com" } (by decide) (by decide) (by decide)

/-- C3 (as stated, refuted): the empty origin and the host-less origin "/x"
parse, and then the empty path is rejected with the bad-path error, not the
bad-origin error; the path "/app" is accepted when the allow-list has an empty
entry; and the path "//example.com/app" is accepted under the allow-list
["example.com"]. -/
theorem hostless_origin_not_always_bad_origin :
    urlParse (str "") = Except.ok {} ∧
    (urlParse (str "/x")).map (fun u => u.Host) = Except.ok [] ∧
    Server.validateClientIndication ⟨[str "example.com"], id⟩ ⟨str "", str ""⟩ =
      some ValidationError.errBadPath ∧
    Server.validateClientIndication ⟨[str "example.com"], id⟩ ⟨str "/x", str ""⟩ =
      some ValidationError.errBadPath ∧
    Server.validateClientIndication ⟨[str ""], id⟩ ⟨str "", str "/app"⟩ = none ∧
    Server.validateClientIndication ⟨[str "example.com"], id⟩
      ⟨str "", str "//example.com/app"⟩ = none := by
  decide

/-- C3 (amended): an origin that does not parse is rejected with the
bad-origin error, for every path and every allow-list.  An origin that parses
to a URL without host (the empty origin is one) is rejected with the bad-path
error when the path is empty, and with the bad-origin error when the path is
not empty and parses without a scheme, a host and user information of its own
and no entry of the allow-list is empty once lowered. -/
theorem unparsable_or_hostless_origin (s : Server) (ind : ClientIndication) :
    (∀ e, urlParse ind.Origin = Except.error e →
      s.validateClientIndication ind = some ValidationError.errBadOrigin) ∧
    urlParse [] = Except.ok {} ∧
    (∀ u, urlParse ind.Origin = Except.ok u → u.Host = [] →
      (ind.Path = [] → s.validateClientIndication ind = some ValidationError.errBadPath) ∧
      (∀ ref, ind.Path ≠ [] → urlParse ind.Path = Except.ok ref →
        ref.Scheme = [] → ref.Host = [] → ref.User = none →
        (∀ o ∈ s.AllowedOrigins, stringsToLower s.unicodeLower o ≠ []) →
        s.validateClientIndication ind = some ValidationError.errBadOrigin)) := by
  refine ⟨?_, by decide, ?_⟩
  · intro e he
    simp [Server.validateClientIndication, he]
  · intro u ho hhost
    constructor
    · intro hpe
      simp [Server.validateClientIndication, ho, hpe]
    · intro ref hpe hp hs hh hu hall
      rw [validate_resolved s ind u u.Host ho hpe (ParseHost_relative u ref _ hp hs hh hu)]
      have ha : ¬ s.isOriginAllowd u.Host = true := by
        intro h
        obtain ⟨o, ho1, ho2⟩ := (isOriginAllowd_iff s u.Host).mp h
        rw [hhost, stringsToLower_nil] at ho2
        exact hall o ho1 ho2
      simp [ha]

/-- Witness of `unparsable_or_hostless_origin`: the origin "://example.com"
does not parse (no scheme before the colon) and is rejected with the
bad-origin error, whatever the path. -/
theorem unparsable_or_hostless_origin_witness :
    Server.validateClientIndication ⟨[str "example.com"], id⟩
      ⟨str "://example.com", str "/app"⟩ = some ValidationError.errBadOrigin :=
  (unparsable_or_hostless_origin ⟨[str "example.com"], id⟩
    ⟨str "://example.com", str "/app"⟩).1 URLError.missingProtocolScheme (by decide)

/-- C8: the allow-list lookup is case-insensitive and exact, and it decides
the validation of an indication whose origin parses and whose non-empty path
resolves: nil when the resolved host matches an entry ignoring case, the
bad-origin error otherwise.  The allow-list ["Example.COM"] authorizes the
origin "https://example.com" with the path "/app" and rejects the origin
"https://evil.com". -/
theorem allow_list_case_insensitive :
    (∀ (s : Server) (h : GoString), s.isOriginAllowd h = true ↔
      ∃ o ∈ s.AllowedOrigins,
        stringsToLower s.unicodeLower o = stringsToLower s.unicodeLower h) ∧
    (∀ (s : Server) (ind : ClientIndication) (u : URL) (host : GoString),
      urlParse ind.Origin = Except.ok u → ind.Path ≠ [] →
      u.ParseHost ind.Path = Except.ok host →
      ((∃ o ∈ s.AllowedOrigins,
          stringsToLower s.unicodeLower o = stringsToLower s.unicodeLower host) →
        s.validateClientIndication ind = none) ∧
      ((¬ ∃ o ∈ s.AllowedOrigins,
          stringsToLower s.unicodeLower o = stringsToLower s.unicodeLower host) →
        s.validateClientIndication ind = some ValidationError.errBadOrigin)) ∧
    (∀ f : GoString → GoString,
      Server.validateClientIndication ⟨[str "Example.COM"], f⟩
        ⟨str "https://example.com", str "/app"⟩ = none ∧
      Server.validateClientIndication ⟨[str "Example.COM"], f⟩
        ⟨str "https://evil.com", str "/app"⟩ = some ValidationError.errBadOrigin) := by
  refine ⟨isOriginAllowd_iff, ?_, ?_⟩
  · intro s ind u host ho hpe hr
    rw [validate_resolved s ind u host ho hpe hr]
    constructor
    · intro h
      rw [if_pos ((isOriginAllowd_iff s host).mpr h)]
    · intro h
      rw [if_neg (fun ha => h ((isOriginAllowd_iff s host).mp ha))]
  · intro f
    constructor
    · rw [validate_resolved _ _ { Scheme := str "https", Host := str "example.com" }
        (str "example.com") (by decide) (by decide) (by decide)]
      rfl
    · rw [validate_resolved _ _ { Scheme := str "https", Host := str "evil.com" }
        (str "evil.com") (by decide) (by decide) (by decide)]
      rfl

/-- Witness of `allow_list_case_insensitive`: the host "EXAMPLE.com:443"
resolved from the path "/app" matches the entry "example.COM:443". -/
theorem allow_list_case_insensitive_witness :
    Server.validateClientIndication ⟨[str "localhost", str "example.COM:443"], id⟩
      ⟨str "https://EXAMPLE.com:443", str "/app"⟩ = none :=
  (allow_list_case_insensitive.2.1 ⟨[str "localhost", str "example.COM:443"], id⟩
    ⟨str "https://EXAMPLE.com:443", str "/app"⟩
    { Scheme := str "https", Host := str "EXAMPLE.com:443" } (str "EXAMPLE.com:443")
    (by decide) (by decide) (by decide)).1 ⟨str "example.COM:443", by decide, by decide⟩

/-- C9 (as stated, refuted): the origin "://example.com" does not parse, and
with the empty path the indication is rejected with the bad-origin error, not
the bad-path error. -/
theorem empty_path_after_bad_origin :
    Server.validateClientIndication ⟨[str "localhost"], id⟩ ⟨str "://example.com", str ""⟩ =
      some ValidationError.errBadOrigin := by
  decide

/-- C9 (amended): for every indication whose path is empty and whose origin
parses as a URL, `validateClientIndication` returns the bad-path error, for
every allow-list. -/
theorem empty_path_is_bad_path (s : Server) (ind : ClientIndication) (u : URL)
    (hp : ind.Path = []) (ho : urlParse ind.Origin = Except.ok u) :
    s.validateClientIndication ind = some ValidationError.errBadPath := by
  unfold Server.validateClientIndication
  rw [ho]
  simp only
  rw [if_pos hp]

/-- Witness of `empty_path_is_bad_path`: origin "https://example.com", empty
path. -/
theorem empty_path_is_bad_path_witness :
    Server.validateClientIndication ⟨[str "example.com"], id⟩
      ⟨str "https://example.com", str ""⟩ = some ValidationError.errBadPath :=
  empty_path_is_bad_path ⟨[str "example.com"], id⟩ ⟨str "https://example.com", str ""⟩
    { Scheme := str "https", Host := str "example.com" } (by decide) (by decide)

/-! ## Claims about the session handler -/

/-- C10: handshake before relay.  Every run of `handleSession` returns; in it
the handler performs an operation behind `ConnectionState` and its first
`AcceptUniStream`, or the `communicateUni` goroutine exists, only if the first
unidirectional stream was accepted, `receiveClientIndication` returned no
error on it and `validateClientIndication` returned nil; if one of the three
steps fails the handler performs those two operations only and no relay loop
is started; and if the three succeed both loops run. -/
theorem handshake_before_relay (s : Server) (sess : Session) :
    ∃ run, s.handleSession sess = some run ∧
      ((run.relayUni ≠ none ∨ run.handler.drop 2 ≠ []) →
        ∃ stream accepts received, sess.acceptUni = some stream :: accepts ∧
          receiveClientIndication stream = some received ∧ received.err = none ∧
          s.validateClientIndication received.indication = none) ∧
      ((¬ ∃ stream accepts received, sess.acceptUni = some stream :: accepts ∧
          receiveClientIndication stream = some received ∧ received.err = none ∧
          s.validateClientIndication received.indication = none) →
        run.relayUni = none ∧
          ∃ ok, run.handler = [SessionOp.ConnectionState, SessionOp.AcceptUniStream ok]) ∧
      (∀ stream accepts received, sess.acceptUni = some stream :: accepts →
        receiveClientIndication stream = some received → received.err = none →
        s.validateClientIndication received.indication = none →
        run.handler = SessionOp.ConnectionState :: SessionOp.AcceptUniStream true ::
            communicate sess.acceptBidi ∧
          run.relayUni = some (communicateUni accepts sess.openUni)) := by
  unfold Server.handleSession
  rcases hacc : sess.acceptUni with _ | ⟨first, accepts⟩
  · refine ⟨_, rfl, ?_, ?_, ?_⟩
    · intro h
      simp at h
    · intro _
      exact ⟨rfl, _, rfl⟩
    · intro stream accepts received h
      simp at h
  · cases first with
    | none =>
      refine ⟨_, rfl, ?_, ?_, ?_⟩
      · intro h
        simp at h
      · intro _
        exact ⟨rfl, _, rfl⟩
      · intro stream accepts received h
        simp at h
    | some stream =>
      obtain ⟨received, hrec⟩ := receiveClientIndication_total stream
      simp only [hrec]
      by_cases herr : received.err = none
      · by_cases hval : s.validateClientIndication received.indication = none
        · simp only [herr, hval, ne_eq, not_true_eq_false, if_false]
          refine ⟨_, rfl, ?_, ?_, ?_⟩
          · intro _
            exact ⟨stream, accepts, received, rfl, hrec, herr, hval⟩
          · intro h
            exact absurd ⟨stream, accepts, received, rfl, hrec, herr, hval⟩ h
          · intro stream1 accepts1 received1 h1 h2 _ _
            simp only [List.cons.injEq, Option.some.injEq] at h1
            obtain ⟨h1a, h1b⟩ := h1
            subst h1a h1b
            exact ⟨rfl, rfl⟩
        · simp only [herr, hval, ne_eq, not_true_eq_false, not_false_eq_true, if_false, if_true]
          refine ⟨_, rfl, ?_, ?_, ?_⟩
          · intro h
            simp at h
          · intro _
            exact ⟨rfl, _, rfl⟩
          · intro stream1 accepts1 received1 h1 h2 _ h4
            simp only [List.cons.injEq, Option.some.injEq] at h1
            obtain ⟨h1a, h1b⟩ := h1
            subst h1a h1b
            rw [hrec] at h2
            cases h2
            exact absurd h4 hval
      · simp only [herr, ne_eq, not_false_eq_true, if_true]
        refine ⟨_, rfl, ?_, ?_, ?_⟩
        · intro h
          simp at h
        · intro _
          exact ⟨rfl, _, rfl⟩
        · intro stream1 accepts1 received1 h1 h2 h3 _
          simp only [List.cons.injEq, Option.some.injEq] at h1
          obtain ⟨h1a, h1b⟩ := h1
          subst h1a h1b
          rw [hrec] at h2
          cases h2
          exact absurd h3 herr

/-- Witness of `handshake_before_relay`: a session whose indication names the
origin "https://evil.com" under the allow-list ["example.com"], with streams
waiting to be relayed: the handler reads the connection state, accepts the
indication stream and does nothing else, and no relay loop is started. -/
theorem handshake_before_relay_witness :
    ∃ run, Server.handleSession ⟨[str "example.com"], id⟩
        ⟨[some (ReceiveStream.ofBytes
            (encodeClientIndication ⟨str "https://evil.com", str "/app"⟩)),
          some (ReceiveStream.ofBytes [1, 2, 3])], [some ⟨true⟩], [some ⟨true⟩]⟩ = some run ∧
      run.relayUni = none ∧
      ∃ ok, run.handler = [SessionOp.ConnectionState, SessionOp.AcceptUniStream ok] := by
  obtain ⟨run, h, _, h2, _⟩ := handshake_before_relay ⟨[str "example.com"], id⟩
    ⟨[some (ReceiveStream.ofBytes (encodeClientIndication ⟨str "https://evil.com", str "/app"⟩)),
      some (ReceiveStream.ofBytes [1, 2, 3])], [some ⟨true⟩], [some ⟨true⟩]⟩
  refine ⟨run, h, h2 ?_⟩
  rintro ⟨stream, accepts, received, h1, h3, _, h5⟩
  simp only [List.cons.injEq, Option.some.injEq] at h1
  obtain ⟨h1a, _⟩ := h1
  subst h1a
  have hd : receiveClientIndication (ReceiveStream.ofBytes
      (encodeClientIndication ⟨str "https://evil.com", str "/app"⟩)) =
      some ⟨⟨str "https://evil.com", str "/app"⟩, none, []⟩ := by decide
  rw [hd] at h3
  cases h3
  exact absurd h5 (by decide)

end QuicTransport
